import Mathlib

/-!
# Verification of `randperm` (Main.cpp)

A shallow embedding of the program in `src/Main.cpp`: a tool that reads the
non-blank lines of an input file, permutes them with the standard single-pass
random shuffle (for `i = 0, …, n-1`, swap `v[i]` with `v[j]` for a uniform
draw `j ∈ [0, i]`), and writes the result one line per record to an output
file.  File contents are modelled as `List Char`, the string vector as
`List (List Char)` (or `List α` for the polymorphic shuffle), and the
pseudo-random generator as the function `draws : Nat → Nat` giving the value
drawn at loop index `i`.
-/

/-- `std::swap(v[i], v[j])` on a list: exchange the elements at positions
`i` and `j`; indices out of range leave the list unchanged (the C++ code
never produces such indices). -/
def swapList {α : Type} (l : List α) (i j : Nat) : List α :=
  if h : i < l.length ∧ j < l.length then
    (l.set i (l.get ⟨j, h.2⟩)).set j (l.get ⟨i, h.1⟩)
  else l

/-- The loop of `Randomize` (Main.cpp line 88–89): `k` remaining iterations,
current loop counter `i`; each iteration draws `draws i` (the value produced
by `std::uniform_int_distribution<size_t>(0, i)(stdRandom)`) and swaps
`v[i]` with `v[draws i]`. -/
def randGo {α : Type} (draws : Nat → Nat) (i : Nat) : Nat → List α → List α
  | 0, l => l
  | k + 1, l => randGo draws (i + 1) k (swapList l i (draws i))

/-- `Randomize` (Main.cpp line 84–90): run the loop for `i = 0, …, v.size()-1`.
The generator is abstracted into `draws`. -/
def Randomize {α : Type} (draws : Nat → Nat) (v : List α) : List α :=
  randGo draws 0 v.length v

/-- Instrumented version of the `Randomize` loop that also counts how many
times a `std::uniform_int_distribution` is invoked on the generator
(exactly once per loop iteration, Main.cpp line 89). -/
def randGoC {α : Type} (draws : Nat → Nat) (i : Nat) : Nat → List α → List α × Nat
  | 0, l => (l, 0)
  | k + 1, l =>
    let p := randGoC draws (i + 1) k (swapList l i (draws i))
    (p.1, p.2 + 1)

/-- Number of draws `Randomize` requests from the generator on input `v`. -/
def randomizeDrawCount {α : Type} (draws : Nat → Nat) (v : List α) : Nat :=
  (randGoC draws 0 v.length v).2

/-- One `std::getline` on a character stream: consume characters up to and
including the first newline; return the line content (without the
terminator) and the rest of the stream. -/
def getlineAux : List Char → List Char × List Char
  | [] => ([], [])
  | c :: cs =>
    if c = '\n' then ([], cs)
    else
      let p := getlineAux cs
      (c :: p.1, p.2)

theorem getlineAux_snd_length_le (cs : List Char) :
    (getlineAux cs).2.length ≤ cs.length := by
  induction cs with
  | nil => simp [getlineAux]
  | cons c cs ih =>
    simp only [getlineAux]
    split
    · simp
    · simpa using Nat.le_succ_of_le ih

theorem getlineAux_snd_length_lt (c : Char) (cs : List Char) :
    (getlineAux (c :: cs)).2.length < (c :: cs).length := by
  simp only [getlineAux]
  split
  · simp
  · simpa using Nat.lt_succ_of_le (getlineAux_snd_length_le cs)

/-- The loop of `ReadStrings` (Main.cpp line 58–60): repeatedly `getline`;
when the stream is exhausted `getline` fails and the loop ends; a non-empty
line is pushed onto the result, an empty line is skipped. -/
def readStringsAux : List Char → List (List Char)
  | [] => []
  | c :: cs =>
    let p := getlineAux (c :: cs)
    if p.1.isEmpty then readStringsAux p.2 else p.1 :: readStringsAux p.2
termination_by cs => cs.length
decreasing_by
  all_goals exact getlineAux_snd_length_lt c cs

/-- `ReadStrings` (Main.cpp line 53–61).  The file is `none` when it cannot
be opened (every `getline` then fails at once).  The prior contents of the
destination vector `v` are discarded by `v.clear()` before the read loop. -/
def ReadStrings (file : Option (List Char)) (v : List (List Char)) :
    List (List Char) :=
  let v := ([] : List (List Char))
  match file with
  | none => v
  | some cs => v ++ readStringsAux cs

/-- `WriteStrings` (Main.cpp line 98–103): open the destination truncating
its prior contents, then append each string followed by a newline
(`outfile << s << std::endl`). -/
def WriteStrings (prior : List Char) (v : List (List Char)) : List Char :=
  v.foldl (fun acc s => acc ++ s ++ ['\n']) []

/-- `GetEpochTime` (Main.cpp line 70–72) composed with the OS clock:
`std::time(0)` truncates the real-valued clock to whole seconds; the result
is converted to `unsigned`, i.e. reduced mod `2^32`.  The clock read is
modelled as a non-negative rational number of seconds since the epoch. -/
def GetEpochTime (clock : ℚ) : Nat :=
  (Int.floor clock % (2 ^ 32 : Int)).toNat

/-- `main` (Main.cpp line 111–119): read `Input.txt`, permute, write
`Output.txt` (whose prior contents are `priorOut`).  Every run terminates
with exit status 0; the observable result is the output file's content. -/
def mainProgram (input : Option (List Char)) (priorOut : List Char)
    (draws : Nat → Nat) : List Char :=
  WriteStrings priorOut (Randomize draws (ReadStrings input []))

/-- A run of the program at wall-clock time `clock`: `std::default_random_engine`
is deterministic given its seed, so the draw stream is a function
`engine : Nat → Nat → Nat` of the seed (Main.cpp line 85–86). -/
def programRunAt (engine : Nat → Nat → Nat) (clock : ℚ)
    (input : Option (List Char)) (priorOut : List Char) : List Char :=
  mainProgram input priorOut (engine (GetEpochTime clock))

/-- Splitting a character stream into lines at newline boundaries, following
the spec's words: "Lines are split on line-terminator boundaries". -/
def splitLines : List Char → List (List Char)
  | [] => [[]]
  | c :: cs =>
    if c = '\n' then [] :: splitLines cs
    else
      match splitLines cs with
      | [] => [[c]]
      | l :: ls => (c :: l) :: ls

/-- The non-blank lines of a character stream, in order: the spec's
description of what the Line Reader must return. -/
def nonBlankLines (cs : List Char) : List (List Char) :=
  (splitLines cs).filter (fun l => !l.isEmpty)

/-- A draw sequence for a shuffle of length `n`: at loop index `i` the
generator produces a uniformly distributed value in the closed range
`[0, i]`, i.e. an element of `Fin (i + 1)`. -/
abbrev DrawSeq (n : Nat) := ∀ i : Fin n, Fin (i.1 + 1)

/-- Interpret a draw sequence as the abstract generator consumed by
`Randomize` (values beyond index `n` are never consulted). -/
def toDraws {n : Nat} (ds : DrawSeq n) : Nat → Nat :=
  fun i => if h : i < n then (ds ⟨i, h⟩).1 else 0

/-- Restriction of a draw sequence for `n + 1` steps to its first `n`
steps. -/
def front {n : Nat} (ds : DrawSeq (n + 1)) : DrawSeq n :=
  fun i => ds ⟨i.1, Nat.lt_succ_of_lt i.2⟩

/-- The permutation of positions `0, …, n-1` produced by running the shuffle
on the draw sequence `ds`: `Randomize` applied to the identity arrangement
`[0, 1, …, n-1]`. -/
def fyMap (n : Nat) (ds : DrawSeq n) : List Nat :=
  Randomize (toDraws ds) (List.range n)

/-! ## Basic facts about `swapList` -/

theorem set_get_self {α : Type} (l : List α) (n : Nat) (h : n < l.length) :
    l.set n (l.get ⟨n, h⟩) = l := by
  induction l generalizing n with
  | nil => simp at h
  | cons a l ih =>
    cases n with
    | zero => simp
    | succ m => simpa using ih m (by simpa using h)

theorem length_swapList {α : Type} (l : List α) (i j : Nat) :
    (swapList l i j).length = l.length := by
  rw [swapList]
  split <;> simp

theorem swapList_self {α : Type} (l : List α) (i : Nat) :
    swapList l i i = l := by
  rw [swapList]
  split
  · rw [List.set_set]
    exact set_get_self ..
  · rfl

theorem getElem?_swapList {α : Type} (l : List α) (i j m : Nat)
    (hi : i < l.length) (hj : j < l.length) :
    (swapList l i j)[m]? =
      if m = j then l[i]? else if m = i then l[j]? else l[m]? := by
  rw [swapList, dif_pos ⟨hi, hj⟩]
  simp only [List.get_eq_getElem]
  by_cases hmj : m = j
  · subst hmj
    rw [if_pos rfl, List.getElem?_set_self (by simpa using hj),
      List.getElem?_eq_getElem hi]
  · rw [List.getElem?_set_ne (fun h => hmj h.symm), if_neg hmj]
    by_cases hmi : m = i
    · subst hmi
      rw [if_pos rfl, List.getElem?_set_self hi, List.getElem?_eq_getElem hj]
    · rw [List.getElem?_set_ne (fun h => hmi h.symm), if_neg hmi]

theorem swapList_eq_of_invalid {α : Type} (l : List α) (i j : Nat)
    (h : ¬(i < l.length ∧ j < l.length)) : swapList l i j = l := by
  rw [swapList, dif_neg h]

theorem swapList_swapList {α : Type} (l : List α) (i j : Nat) :
    swapList (swapList l i j) i j = l := by
  by_cases h : i < l.length ∧ j < l.length
  · obtain ⟨hi, hj⟩ := h
    have hi2 : i < (swapList l i j).length := by rw [length_swapList]; exact hi
    have hj2 : j < (swapList l i j).length := by rw [length_swapList]; exact hj
    apply List.ext_getElem?
    intro m
    rw [getElem?_swapList (swapList l i j) i j m hi2 hj2]
    by_cases hmj : m = j
    · rw [if_pos hmj, getElem?_swapList l i j i hi hj, hmj]
      by_cases hij : i = j
      · rw [if_pos hij, hij]
      · rw [if_neg hij, if_pos rfl]
    · rw [if_neg hmj]
      by_cases hmi : m = i
      · rw [if_pos hmi, getElem?_swapList l i j j hi hj, if_pos rfl, hmi]
      · rw [if_neg hmi, getElem?_swapList l i j m hi hj, if_neg hmj, if_neg hmi]
  · rw [swapList_eq_of_invalid l i j h, swapList_eq_of_invalid l i j h]

theorem swapList_append {α : Type} (l l2 : List α) (i j : Nat)
    (hi : i < l.length) (hj : j < l.length) :
    swapList (l ++ l2) i j = swapList l i j ++ l2 := by
  have hi2 : i < (l ++ l2).length := by simp; omega
  have hj2 : j < (l ++ l2).length := by simp; omega
  rw [swapList, dif_pos ⟨hi2, hj2⟩, swapList, dif_pos ⟨hi, hj⟩]
  simp only [List.get_eq_getElem, List.getElem_append_left hj,
    List.getElem_append_left hi, List.set_append_left _ _ hi]
  rw [List.set_append_left]
  rw [List.length_set]
  exact hj

/-! ## The shuffle loop -/

theorem length_randGo {α : Type} (draws : Nat → Nat) (i k : Nat) (l : List α) :
    (randGo draws i k l).length = l.length := by
  induction k generalizing i l with
  | zero => rfl
  | succ k ih => rw [randGo, ih, length_swapList]

theorem randGo_succ_peel {α : Type} (draws : Nat → Nat) (i k : Nat) (l : List α) :
    randGo draws i (k + 1) l =
      swapList (randGo draws i k l) (i + k) (draws (i + k)) := by
  induction k generalizing i l with
  | zero => simp [randGo]
  | succ k ih =>
    rw [randGo, ih]
    have h : i + 1 + k = i + (k + 1) := by omega
    rw [h, randGo]

theorem randGo_congr {α : Type} (d1 d2 : Nat → Nat) (i k : Nat) (l : List α)
    (h : ∀ m, i ≤ m → m < i + k → d1 m = d2 m) :
    randGo d1 i k l = randGo d2 i k l := by
  induction k generalizing i l with
  | zero => rfl
  | succ k ih =>
    rw [randGo, randGo, h i le_rfl (by omega)]
    exact ih (i + 1) _ (fun m hm1 hm2 => h m (by omega) (by omega))

theorem randGo_eq_foldl {α : Type} (draws : Nat → Nat) (i k : Nat) (l : List α) :
    randGo draws i k l =
      (List.range' i k).foldl (fun acc n => swapList acc n (draws n)) l := by
  induction k generalizing i l with
  | zero => rfl
  | succ k ih => rw [randGo, List.range'_succ, List.foldl_cons, ih]

theorem Randomize_eq_foldl {α : Type} (draws : Nat → Nat) (v : List α) :
    Randomize draws v =
      (List.range v.length).foldl (fun acc n => swapList acc n (draws n)) v := by
  rw [Randomize, randGo_eq_foldl, List.range_eq_range']

theorem randGo_id {α : Type} (draws : Nat → Nat) (i k : Nat) (l : List α)
    (h : ∀ m, i ≤ m → m < i + k → draws m = m) :
    randGo draws i k l = l := by
  induction k generalizing i l with
  | zero => rfl
  | succ k ih =>
    rw [randGo, h i le_rfl (by omega), swapList_self]
    exact ih (i + 1) l (fun m hm1 hm2 => h m (by omega) (by omega))

theorem randGo_append {α : Type} (d : Nat → Nat) (i k : Nat) (l l2 : List α)
    (h : ∀ m, i ≤ m → m < i + k → m < l.length ∧ d m ≤ m) :
    randGo d i k (l ++ l2) = randGo d i k l ++ l2 := by
  induction k generalizing i l with
  | zero => rfl
  | succ k ih =>
    obtain ⟨h1, h2⟩ := h i le_rfl (by omega)
    rw [randGo, randGo, swapList_append l l2 i (d i) h1 (lt_of_le_of_lt h2 h1)]
    exact ih (i + 1) _ (fun m hm1 hm2 => by
      rw [length_swapList]
      exact h m (by omega) (by omega))

/-! ## The shuffle is a permutation -/

theorem get_cons_set_perm {α : Type} :
    ∀ (l : List α) (m : Nat) (h : m < l.length) (b : α),
      List.Perm (l.get ⟨m, h⟩ :: l.set m b) (b :: l) := by
  intro l
  induction l with
  | nil => intro m h b; simp at h
  | cons c cs ih =>
    intro m h b
    cases m with
    | zero => simpa using List.Perm.swap b c cs
    | succ k =>
      have hk : k < cs.length := by simpa using h
      have h1 : List.Perm (cs.get ⟨k, hk⟩ :: c :: cs.set k b)
          (c :: cs.get ⟨k, hk⟩ :: cs.set k b) := List.Perm.swap ..
      have h2 : List.Perm (c :: cs.get ⟨k, hk⟩ :: cs.set k b)
          (c :: b :: cs) := (ih k hk b).cons c
      have h3 : List.Perm (c :: b :: cs) (b :: c :: cs) := List.Perm.swap ..
      simpa using (h1.trans h2).trans h3

theorem set_set_perm {α : Type} :
    ∀ (l : List α) (i j : Nat) (hij : i < j) (hj : j < l.length),
      List.Perm ((l.set i (l.get ⟨j, hj⟩)).set j (l.get ⟨i, lt_trans hij hj⟩)) l := by
  intro l
  induction l with
  | nil => intro i j hij hj; simp at hj
  | cons c cs ih =>
    intro i j hij hj
    cases i with
    | zero =>
      obtain ⟨k, rfl⟩ : ∃ k, j = k + 1 := ⟨j - 1, by omega⟩
      have hk : k < cs.length := by simpa using hj
      simpa using get_cons_set_perm cs k hk c
    | succ m =>
      obtain ⟨k, rfl⟩ : ∃ k, j = k + 1 := ⟨j - 1, by omega⟩
      have hk : k < cs.length := by simpa using hj
      have hmk : m < k := by omega
      simpa using (ih m k hmk hk).cons c

theorem swapList_perm {α : Type} (l : List α) (i j : Nat) :
    List.Perm (swapList l i j) l := by
  by_cases h : i < l.length ∧ j < l.length
  · obtain ⟨hi, hj⟩ := h
    rcases lt_trichotomy i j with hij | heq | hji
    · rw [swapList, dif_pos ⟨hi, hj⟩]
      exact set_set_perm l i j hij hj
    · rw [heq, swapList_self]
    · rw [swapList, dif_pos ⟨hi, hj⟩, List.set_comm _ _ l (ne_of_gt hji)]
      exact set_set_perm l j i hji hi
  · rw [swapList_eq_of_invalid l i j h]

theorem randGo_perm {α : Type} (draws : Nat → Nat) (i k : Nat) (l : List α) :
    List.Perm (randGo draws i k l) l := by
  induction k generalizing i l with
  | zero => exact List.Perm.refl l
  | succ k ih =>
    rw [randGo]
    exact (ih (i + 1) _).trans (swapList_perm l i (draws i))

theorem Randomize_perm {α : Type} (draws : Nat → Nat) (v : List α) :
    List.Perm (Randomize draws v) v :=
  randGo_perm draws 0 v.length v

/-! ## The line reader -/

theorem splitLines_getline (cs : List Char) :
    splitLines cs =
      (getlineAux cs).1 ::
        (if ('\n' : Char) ∈ cs then splitLines (getlineAux cs).2 else []) := by
  induction cs with
  | nil => simp [splitLines, getlineAux]
  | cons c cs ih =>
    by_cases hc : c = '\n'
    · subst hc
      simp [splitLines, getlineAux]
    · have hc2 : ¬('\n' : Char) = c := fun h => hc h.symm
      simp only [splitLines, getlineAux, if_neg hc, List.mem_cons, hc2,
        false_or]
      by_cases hmem : ('\n' : Char) ∈ cs
      · rw [ih, if_pos hmem]
      · rw [ih, if_neg hmem]

theorem getlineAux_no_newline (cs : List Char) (h : ('\n' : Char) ∉ cs) :
    getlineAux cs = (cs, []) := by
  induction cs with
  | nil => rfl
  | cons c cs ih =>
    have hc : ¬c = '\n' := fun he => h (by rw [he]; exact List.mem_cons_self ..)
    have hmem : ('\n' : Char) ∉ cs := fun hm => h (List.mem_cons_of_mem c hm)
    simp [getlineAux, hc, ih hmem]

theorem readStringsAux_eq_nonBlankLines (cs : List Char) :
    readStringsAux cs = nonBlankLines cs := by
  have H : ∀ n cs0, List.length cs0 = n → readStringsAux cs0 = nonBlankLines cs0 := by
    intro n
    induction n using Nat.strong_induction_on with
    | _ n ih =>
      intro cs0 hlen
      cases cs0 with
      | nil => simp [readStringsAux, nonBlankLines, splitLines]
      | cons c cs1 =>
        rw [readStringsAux, nonBlankLines, splitLines_getline (c :: cs1)]
        by_cases hmem : ('\n' : Char) ∈ (c :: cs1)
        · rw [if_pos hmem]
          have hlt := getlineAux_snd_length_lt c cs1
          have ihrec : readStringsAux (getlineAux (c :: cs1)).2 =
              nonBlankLines (getlineAux (c :: cs1)).2 :=
            ih (getlineAux (c :: cs1)).2.length (by omega) _ rfl
          rw [List.filter_cons, ihrec, nonBlankLines]
          cases hemp : (getlineAux (c :: cs1)).1.isEmpty <;> simp [hemp]
        · rw [if_neg hmem, getlineAux_no_newline _ hmem]
          simp [readStringsAux, List.filter_cons]
  exact H cs.length cs rfl

theorem ReadStrings_eq_nonBlankLines (cs : List Char) (v : List (List Char)) :
    ReadStrings (some cs) v = nonBlankLines cs := by
  rw [ReadStrings]
  simpa using readStringsAux_eq_nonBlankLines cs

/-! ## The line writer -/

theorem foldl_write_acc (v : List (List Char)) (acc : List Char) :
    v.foldl (fun acc s => acc ++ s ++ ['\n']) acc =
      acc ++ (v.map (fun s => s ++ ['\n'])).flatten := by
  induction v generalizing acc with
  | nil => simp
  | cons s v ih => rw [List.foldl_cons, ih]; simp

theorem WriteStrings_eq_join (prior : List Char) (v : List (List Char)) :
    WriteStrings prior v = (v.map (fun s => s ++ ['\n'])).flatten := by
  rw [WriteStrings]
  simpa using foldl_write_acc v []

/-! ## Round trip -/

theorem getlineAux_append_newline (s r : List Char) (h : ('\n' : Char) ∉ s) :
    getlineAux (s ++ '\n' :: r) = (s, r) := by
  induction s with
  | nil => simp [getlineAux]
  | cons c s0 ih =>
    have hc : ¬c = '\n' := fun he => h (by rw [he]; exact List.mem_cons_self ..)
    have hmem : ('\n' : Char) ∉ s0 := fun hm => h (List.mem_cons_of_mem c hm)
    simp [getlineAux, hc, ih hmem]

theorem readStringsAux_cons_line (s r : List Char) (hs : s ≠ [])
    (h : ('\n' : Char) ∉ s) :
    readStringsAux (s ++ '\n' :: r) = s :: readStringsAux r := by
  cases s with
  | nil => exact absurd rfl hs
  | cons c s0 =>
    rw [List.cons_append, readStringsAux]
    have hgl : getlineAux (c :: (s0 ++ '\n' :: r)) = (c :: s0, r) := by
      rw [← List.cons_append]
      exact getlineAux_append_newline (c :: s0) r h
    rw [hgl]
    simp

theorem readStringsAux_join (v : List (List Char))
    (h : ∀ s ∈ v, s ≠ [] ∧ ('\n' : Char) ∉ s) :
    readStringsAux ((v.map (fun s => s ++ ['\n'])).flatten) = v := by
  induction v with
  | nil => simp [readStringsAux]
  | cons s v ih =>
    obtain ⟨hs, hn⟩ := h s (List.mem_cons_self ..)
    have : (s ++ ['\n']) ++ (v.map (fun s => s ++ ['\n'])).flatten =
        s ++ '\n' :: (v.map (fun s => s ++ ['\n'])).flatten := by
      simp
    rw [List.map_cons, List.flatten_cons, this, readStringsAux_cons_line _ _ hs hn,
      ih (fun t ht => h t (List.mem_cons_of_mem s ht))]

/-! ## The map from draw sequences to permutations -/

/-- The shuffle outcome bundled with the proof that it is a rearrangement of
`[0, …, n-1]`. -/
def fyMapP (n : Nat) (ds : DrawSeq n) :
    { l : List Nat // List.Perm l (List.range n) } :=
  ⟨fyMap n ds, Randomize_perm (toDraws ds) (List.range n)⟩

theorem fyMap_length (n : Nat) (ds : DrawSeq n) : (fyMap n ds).length = n := by
  rw [fyMap, Randomize, length_randGo, List.length_range]

theorem fyMap_perm (n : Nat) (ds : DrawSeq n) :
    List.Perm (fyMap n ds) (List.range n) :=
  Randomize_perm (toDraws ds) (List.range n)

theorem not_mem_of_perm_range (n : Nat) (xs : List Nat)
    (h : List.Perm xs (List.range n)) : ¬n ∈ xs := by
  intro hmem
  have := h.mem_iff.mp hmem
  simp [List.mem_range] at this

theorem toDraws_le {n : Nat} (ds : DrawSeq n) (m : Nat) (h : m < n) :
    toDraws ds m ≤ m := by
  rw [toDraws, dif_pos h]
  exact Nat.lt_succ_iff.mp (ds ⟨m, h⟩).isLt

theorem toDraws_front {n : Nat} (ds : DrawSeq (n + 1)) (m : Nat) (h : m < n) :
    toDraws (front ds) m = toDraws ds m := by
  rw [toDraws, toDraws, dif_pos h, dif_pos (Nat.lt_succ_of_lt h), front]

theorem fyMap_succ (n : Nat) (ds : DrawSeq (n + 1)) :
    fyMap (n + 1) ds =
      swapList (fyMap n (front ds) ++ [n]) n (ds (Fin.last n)).1 := by
  rw [fyMap, Randomize, List.length_range]
  rw [randGo_succ_peel (toDraws ds) 0 n (List.range (n + 1))]
  have h1 : List.range (n + 1) = List.range n ++ [n] := List.range_succ n
  have h2 : randGo (toDraws ds) 0 n (List.range n ++ [n]) =
      randGo (toDraws ds) 0 n (List.range n) ++ [n] := by
    apply randGo_append
    intro m hm1 hm2
    refine ⟨by simpa using hm2, toDraws_le ds m (by omega)⟩
  have h3 : randGo (toDraws ds) 0 n (List.range n) =
      randGo (toDraws (front ds)) 0 n (List.range n) := by
    apply randGo_congr
    intro m hm1 hm2
    exact (toDraws_front ds m (by omega)).symm
  have h4 : toDraws ds (0 + n) = (ds (Fin.last n)).1 := by
    rw [Nat.zero_add, toDraws, dif_pos (Nat.lt_succ_self n)]
    rfl
  rw [h1, h2, h3, h4, Nat.zero_add]
  rw [fyMap, Randomize, List.length_range]

theorem swapList_append_singleton {α : Type} (xs : List α) (a : α) (j : Nat)
    (hj : j < xs.length) :
    swapList (xs ++ [a]) xs.length j =
      xs.set j a ++ [xs.get ⟨j, hj⟩] := by
  have hL : xs.length < (xs ++ [a]).length := by simp
  have hjL : j < (xs ++ [a]).length := by simp; omega
  have hjne : j ≠ xs.length := Nat.ne_of_lt hj
  apply List.ext_getElem?
  intro m
  rw [getElem?_swapList (xs ++ [a]) xs.length j m hL hjL]
  by_cases hmj : m = j
  · rw [if_pos hmj, hmj]
    rw [List.getElem?_append_right (Nat.le_refl xs.length)]
    simp only [Nat.sub_self, List.getElem?_cons_zero]
    rw [List.getElem?_append_left (by simpa using hj),
      List.getElem?_set_self (by simpa using hj)]
  · rw [if_neg hmj]
    by_cases hmL : m = xs.length
    · rw [if_pos hmL, hmL]
      rw [List.getElem?_append_left hj, List.getElem?_eq_getElem hj]
      rw [List.getElem?_append_right (by simp)]
      simp
    · rw [if_neg hmL]
      by_cases hm : m < xs.length
      · rw [List.getElem?_append_left hm,
          List.getElem?_append_left (by simpa using hm),
          List.getElem?_set_ne (fun h => hmj h.symm)]
      · have hm1 : (xs ++ [a]).length ≤ m := by simp; omega
        have hm2 : (xs.set j a ++ [xs.get ⟨j, hj⟩]).length ≤ m := by
          simp; omega
        rw [List.getElem?_eq_none hm1, List.getElem?_eq_none hm2]

theorem swap_last_getElem?_iff (xs : List Nat) (a : Nat) (j m : Nat)
    (hnot : ¬a ∈ xs) (hj : j ≤ xs.length) :
    (swapList (xs ++ [a]) xs.length j)[m]? = some a ↔ m = j := by
  rcases Nat.lt_or_ge j xs.length with hjlt | hjge
  · rw [swapList_append_singleton xs a j hjlt]
    constructor
    · intro hm
      by_contra hne
      rcases Nat.lt_trichotomy m xs.length with hmL | hmL | hmL
      · rw [List.getElem?_append_left (by simpa using hmL),
          List.getElem?_set_ne (fun h => hne h.symm)] at hm
        exact hnot (List.getElem?_mem hm)
      · rw [hmL, List.getElem?_append_right (by simp)] at hm
        simp only [List.length_set, Nat.sub_self, List.getElem?_cons_zero,
          Option.some_inj] at hm
        exact hnot (hm ▸ List.get_mem xs j hjlt)
      · rw [List.getElem?_eq_none (by simp only [List.length_append,
          List.length_set, List.length_cons, List.length_nil]; omega)] at hm
        exact Option.noConfusion hm
    · intro hm
      rw [hm, List.getElem?_append_left (by simpa using hjlt),
        List.getElem?_set_self (by simpa using hjlt)]
  · have hjeq : j = xs.length := Nat.le_antisymm hj hjge
    subst hjeq
    rw [swapList_self]
    constructor
    · intro hm
      by_contra hne
      rcases Nat.lt_trichotomy m xs.length with hmL | hmL | hmL
      · rw [List.getElem?_append_left hmL] at hm
        exact hnot (List.getElem?_mem hm)
      · exact hne hmL
      · rw [List.getElem?_eq_none (by simp only [List.length_append,
          List.length_cons, List.length_nil]; omega)] at hm
        exact Option.noConfusion hm
    · intro hm
      rw [hm, List.getElem?_append_right (Nat.le_refl xs.length)]
      simp

theorem fyMap_succ_getElem?_iff (n : Nat) (ds : DrawSeq (n + 1)) (m : Nat) :
    (fyMap (n + 1) ds)[m]? = some n ↔ m = (ds (Fin.last n)).1 := by
  have hlen : (fyMap n (front ds)).length = n := fyMap_length ..
  have hnot : ¬n ∈ fyMap n (front ds) :=
    not_mem_of_perm_range n _ (fyMap_perm ..)
  have hj : (ds (Fin.last n)).1 ≤ n := Nat.lt_succ_iff.mp (ds (Fin.last n)).isLt
  rw [fyMap_succ]
  have h := swap_last_getElem?_iff (fyMap n (front ds)) n (ds (Fin.last n)).1 m
    hnot (by omega)
  rwa [hlen] at h

theorem fyMap_injective : ∀ (n : Nat) (ds es : DrawSeq n),
    fyMap n ds = fyMap n es → ds = es := by
  intro n
  induction n with
  | zero =>
    intro ds es _
    funext i
    exact absurd i.isLt (Nat.not_lt_zero _)
  | succ n ih =>
    intro ds es h
    have hlast : (es (Fin.last n)).1 = (ds (Fin.last n)).1 := by
      have h2 : (fyMap (n + 1) es)[(es (Fin.last n)).1]? = some n :=
        (fyMap_succ_getElem?_iff n es _).mpr rfl
      rw [← h] at h2
      exact (fyMap_succ_getElem?_iff n ds _).mp h2
    rw [fyMap_succ, fyMap_succ, hlast] at h
    have h2 := congrArg (fun l => swapList l n (ds (Fin.last n)).1) h
    simp only [swapList_swapList] at h2
    have h3 : fyMap n (front ds) = fyMap n (front es) :=
      List.append_cancel_right h2
    have h4 := ih (front ds) (front es) h3
    funext i
    refine Fin.lastCases ?_ ?_ i
    · exact Fin.ext hlast.symm
    · intro i0
      have h5 := congrFun h4 i0
      rw [front, front] at h5
      exact Fin.ext (congrArg Fin.val h5)

theorem fyMap_snoc (n : Nat) (ds0 : DrawSeq n) (x : Fin (n + 1)) :
    fyMap (n + 1) (Fin.snoc ds0 x : DrawSeq (n + 1)) =
      swapList (fyMap n ds0 ++ [n]) n x.1 := by
  rw [fyMap_succ]
  have hfront : front (Fin.snoc ds0 x : DrawSeq (n + 1)) = ds0 := by
    funext i0
    exact @Fin.snoc_castSucc n (fun i => Fin (i.1 + 1)) x ds0 i0
  have hlast : (Fin.snoc ds0 x : DrawSeq (n + 1)) (Fin.last n) = x :=
    @Fin.snoc_last n (fun i => Fin (i.1 + 1)) x ds0
  rw [hfront, hlast]

theorem fyMap_surjective : ∀ (n : Nat) (l : List Nat),
    List.Perm l (List.range n) → ∃ ds : DrawSeq n, fyMap n ds = l := by
  intro n
  induction n with
  | zero =>
    intro l hl
    refine ⟨fun i => absurd i.isLt (Nat.not_lt_zero _), ?_⟩
    have hnil : l = [] := by
      rw [List.range_zero] at hl
      exact hl.eq_nil
    rw [hnil, fyMap, List.range_zero, Randomize]
    rfl
  | succ n ih =>
    intro l hl
    have hlen : l.length = n + 1 := by rw [hl.length_eq, List.length_range]
    have hmem : n ∈ l := hl.mem_iff.mpr (by simp)
    obtain ⟨j, hjval⟩ := List.mem_iff_getElem?.mp hmem
    have hjlt : j < l.length := by
      by_contra hc
      rw [List.getElem?_eq_none (by omega)] at hjval
      exact Option.noConfusion hjval
    have hn_lt : n < l.length := by omega
    have hlen2 : (swapList l n j).length = n + 1 := by
      rw [length_swapList, hlen]
    have hgetn : (swapList l n j)[n]? = some n := by
      rw [getElem?_swapList l n j n hn_lt hjlt]
      by_cases hnj : n = j
      · subst hnj
        rw [if_pos rfl]
        exact hjval
      · rw [if_neg hnj, if_pos rfl]
        exact hjval
    have hdecomp : swapList l n j = (swapList l n j).take n ++ [n] := by
      have h1 := (List.take_append_drop n (swapList l n j)).symm
      have h2 : (swapList l n j).drop n = [n] := by
        rw [List.drop_eq_getElem_cons (by omega)]
        have h3 : ((swapList l n j).drop (n + 1)) = [] :=
          List.drop_eq_nil_of_le (by omega)
        rw [h3]
        have h4 := List.getElem?_eq_getElem (l := swapList l n j)
          (n := n) (by omega)
        rw [hgetn] at h4
        rw [Option.some_inj.mp h4.symm]
      rw [h2] at h1
      exact h1
    have hys_perm : List.Perm ((swapList l n j).take n) (List.range n) := by
      have hp : List.Perm ((swapList l n j).take n ++ [n])
          (List.range n ++ [n]) := by
        rw [← hdecomp, ← List.range_succ]
        exact (swapList_perm l n j).trans hl
      have hq : List.Perm (n :: (swapList l n j).take n)
          (n :: List.range n) :=
        ((List.perm_append_singleton n _).symm.trans hp).trans
          (List.perm_append_singleton n _)
      exact hq.cons_inv
    obtain ⟨ds0, hds0⟩ := ih _ hys_perm
    have hjn1 : j < n + 1 := by omega
    refine ⟨(Fin.snoc ds0 ⟨j, hjn1⟩ : DrawSeq (n + 1)), ?_⟩
    rw [fyMap_snoc n ds0 ⟨j, hjn1⟩, hds0, ← hdecomp, swapList_swapList]

theorem card_drawSeq (n : Nat) : Fintype.card (DrawSeq n) = n.factorial := by
  rw [Fintype.card_pi]
  have h1 : ∀ i : Fin n, Fintype.card (Fin (i.1 + 1)) = i.1 + 1 :=
    fun i => Fintype.card_fin _
  rw [Finset.prod_congr rfl (fun i _ => h1 i)]
  rw [Fin.prod_univ_eq_prod_range (fun m => m + 1) n]
  exact Finset.prod_range_add_one_eq_factorial n

/-! ## Draw counting -/

theorem randGoC_count {α : Type} (draws : Nat → Nat) (i k : Nat) (l : List α) :
    (randGoC draws i k l).2 = k := by
  induction k generalizing i l with
  | zero => rfl
  | succ k ih => rw [randGoC, ih]

theorem randomizeDrawCount_eq_length {α : Type} (draws : Nat → Nat)
    (v : List α) : randomizeDrawCount draws v = v.length := by
  rw [randomizeDrawCount, randGoC_count]

/-! ## Claims -/

/-- C1: the shuffle performs exactly one pass `i = 0, …, n-1`, at each step
exchanging positions `i` and `draws i` (the drawn `j ∈ [0, i]`); on
`["x", "y"]` with the draw at `i = 1` forced to `0` the result is
`["y", "x"]`; and when every draw at step `i` returns `i`, the sequence is
unchanged. -/
theorem claim_C1 (l : List String) (draws : Nat → Nat)
    (hid : ∀ i, i < l.length → draws i = i) :
    (∀ (α : Type) (v : List α) (d : Nat → Nat),
        Randomize d v =
          (List.range v.length).foldl (fun acc i => swapList acc i (d i)) v)
    ∧ Randomize (fun _ => 0) (["x", "y"] : List String) = ["y", "x"]
    ∧ Randomize draws l = l := by
  refine ⟨fun α v d => Randomize_eq_foldl d v, by decide, ?_⟩
  rw [Randomize]
  exact randGo_id draws 0 l.length l (fun m h1 h2 => hid m (by omega))

theorem claim_C1_witness :
    Randomize (fun i => i) (["a", "b", "c"] : List String) = ["a", "b", "c"] :=
  (claim_C1 ["a", "b", "c"] (fun i => i) (fun i _ => rfl)).2.2

/-- C2: for every `n`, the map from draw sequences
`(j_0, …, j_{n-1})`, `j_i ∈ [0, i]`, to the resulting rearrangements of
`[0, …, n-1]` is a bijection; moreover there are exactly `n!` draw
sequences, so under a uniform generator every permutation has probability
`1/n!`. -/
theorem claim_C2 (n : Nat) :
    Function.Bijective (fyMapP n) ∧
      Fintype.card (DrawSeq n) = n.factorial := by
  refine ⟨⟨?_, ?_⟩, card_drawSeq n⟩
  · intro ds es h
    exact fyMap_injective n ds es (congrArg Subtype.val h)
  · intro le
    obtain ⟨ds, hds⟩ := fyMap_surjective n le.1 le.2
    exact ⟨ds, Subtype.ext hds⟩

/-- C3: the shuffle only reorders: its result is a permutation of its input
(equal multisets), for every draw stream; in particular the multiset of
non-blank lines written equals the multiset of non-blank lines read. -/
theorem claim_C3 {α : Type} (draws : Nat → Nat) (v : List α)
    (cs : List Char) (w : List (List Char)) :
    List.Perm (Randomize draws v) v ∧
    (↑(Randomize draws v) : Multiset α) = (↑v : Multiset α) ∧
    List.Perm (Randomize draws (ReadStrings (some cs) w))
      (nonBlankLines cs) := by
  refine ⟨Randomize_perm draws v, ?_, ?_⟩
  · exact Multiset.coe_eq_coe.mpr (Randomize_perm draws v)
  · rw [ReadStrings_eq_nonBlankLines]
    exact Randomize_perm draws (nonBlankLines cs)

/-- C4: the line reader returns exactly the non-blank lines of the input,
in original order with exact content, and hence exactly as many lines as
the input has non-blank lines. -/
theorem claim_C4 (cs : List Char) (v : List (List Char)) :
    ReadStrings (some cs) v = nonBlankLines cs ∧
    (ReadStrings (some cs) v).length = (nonBlankLines cs).length := by
  refine ⟨ReadStrings_eq_nonBlankLines cs v, ?_⟩
  rw [ReadStrings_eq_nonBlankLines cs v]

/-- C5: the line writer emits each string as one newline-terminated record,
in sequence order, ignoring (overwriting) prior destination content, and
writes nothing for the empty sequence. -/
theorem claim_C5 (prior : List Char) (v : List (List Char)) :
    WriteStrings prior v = (v.map (fun s => s ++ ['\n'])).flatten ∧
    WriteStrings prior ([] : List (List Char)) = [] :=
  ⟨WriteStrings_eq_join prior v, rfl⟩

/-- C6 counterexample: on the one-element list `["x"]` the shuffle's loop
body runs once and requests one draw from the generator, contradicting the
claim that `n = 1` draws no random numbers. -/
theorem claim_C6_counterexample :
    ¬(randomizeDrawCount (fun _ => 0) (["x"] : List String) = 0) := by
  decide

/-- C6 amended: for `n = 0` the shuffle draws nothing and leaves the
sequence unchanged; for `n = 1` the loop body runs once, drawing exactly
one integer (from the degenerate range `[0, 0]`, so its value is forced),
and the sequence is unchanged. -/
theorem claim_C6 {α : Type} (a : α) (draws : Nat → Nat) :
    randomizeDrawCount draws ([] : List α) = 0 ∧
    Randomize draws ([] : List α) = [] ∧
    randomizeDrawCount draws [a] = 1 ∧
    Randomize draws [a] = [a] := by
  refine ⟨rfl, rfl, randomizeDrawCount_eq_length draws [a], ?_⟩
  rw [Randomize]
  show randGo draws 0 1 [a] = [a]
  rw [randGo, randGo]
  by_cases h : draws 0 = 0
  · rw [h, swapList_self]
  · exact swapList_eq_of_invalid _ _ _
      (fun hc => h (Nat.lt_one_iff.mp hc.2))

/-- C7: writing a sequence of non-empty, terminator-free strings and
reading the destination back yields exactly the written sequence. -/
theorem claim_C7 (prior : List Char) (v w : List (List Char))
    (h : ∀ s ∈ v, s ≠ [] ∧ ('\n' : Char) ∉ s) :
    ReadStrings (some (WriteStrings prior v)) w = v := by
  rw [WriteStrings_eq_join, ReadStrings]
  simpa using readStringsAux_join v h

theorem claim_C7_witness :
    ReadStrings (some (WriteStrings [] [['a'], ['b', 'c']])) [['z']] =
      [['a'], ['b', 'c']] :=
  claim_C7 [] [['a'], ['b', 'c']] [['z']] (by decide)

/-- C8: an unopenable input file raises no error: the reader yields the
empty sequence and the program completes with an empty output file — the
same observable result as an input with zero usable lines (e.g. two blank
lines). -/
theorem claim_C8 (draws : Nat → Nat) (prior : List Char) :
    mainProgram none prior draws = [] ∧
    ReadStrings none [] = [] ∧
    mainProgram none prior draws =
      mainProgram (some ['\n', '\n']) prior draws := by
    refine ⟨rfl, rfl, ?_⟩
    rw [mainProgram, mainProgram, ReadStrings, ReadStrings]
    simp [readStringsAux, getlineAux]

/-- C9: two runs on the same input whose clock reads fall in the same whole
second obtain the same seed, hence (the generator being deterministic in
its seed) identical draws and byte-identical output. -/
theorem claim_C9 (engine : Nat → Nat → Nat) (t1 t2 : ℚ)
    (input : Option (List Char)) (prior : List Char)
    (h : Int.floor t1 = Int.floor t2) :
    programRunAt engine t1 input prior = programRunAt engine t2 input prior := by
  rw [programRunAt, programRunAt, GetEpochTime, GetEpochTime, h]

theorem claim_C9_witness :
    Int.floor ((3 : ℚ) / 2) = Int.floor ((7 : ℚ) / 4) ∧
    programRunAt (fun _ _ => 0) ((3 : ℚ) / 2) (some ['a']) [] =
      programRunAt (fun _ _ => 0) ((7 : ℚ) / 4) (some ['a']) [] :=
  ⟨by norm_num, claim_C9 (fun _ _ => 0) ((3 : ℚ) / 2) ((7 : ℚ) / 4)
    (some ['a']) [] (by norm_num)⟩

/-- C10: the line reader's result does not depend on the prior contents of
the destination vector (it is cleared first): for every prior state the
result is exactly the non-blank lines of the file. -/
theorem claim_C10 (file : Option (List Char)) (v w : List (List Char))
    (cs : List Char) :
    ReadStrings file v = ReadStrings file w ∧
    ReadStrings (some cs) v = nonBlankLines cs :=
  ⟨rfl, ReadStrings_eq_nonBlankLines cs v⟩
